import Mathlib

/-!
Verification of the logdump tailing/buffering engine.

Shallow embedding of the claim-relevant parts of the repository:
- `internal/logtail/logtail.go` (Manager.AddEntry, Manager.GetEntries,
  Manager.Search, Stream.read),
- `internal/config/config.go` (Config.AutoDiscover),
- `internal/mcp/mcp.go` (Server.toolRead, Server.toolGrep,
  Server.toolCreateGroup, Server.handleResourcesRead).

Strings that the code computes with are modelled as `List Char` where kernel
reduction matters; entry fields keep `String`.  Wall-clock timestamps and the
concurrency plumbing (channels, locks, goroutines) are not part of the
embedding; the buffer and group state are passed explicitly instead.
-/

namespace Logdump

/-- LogEntry from internal/logtail/logtail.go.  The Timestamp field (wall-clock
capture time) and the transient Filtered flag are irrelevant to the verified
properties and are omitted from the embedding. -/
structure LogEntry where
  source : String
  content : String
  tags : List String
  lineNumber : Nat
deriving Repr, DecidableEq

/-- StreamConfig from internal/config/config.go. -/
structure StreamConfig where
  name : String
  path : String
  patterns : List String
  tags : List String
  color : String
deriving Repr, DecidableEq

/-- The buffer capacity hard-coded in Manager.AddEntry (and pre-allocated in
NewManagerWithOptions). -/
def bufferCapacity : Nat := 1000

/-- Manager.AddEntry from internal/logtail/logtail.go: append the entry, then,
if the buffer length exceeds 1000, keep only the final 1000 entries. -/
def Manager.AddEntry (buffer : List LogEntry) (entry : LogEntry) : List LogEntry :=
  if bufferCapacity < (buffer ++ [entry]).length then
    (buffer ++ [entry]).drop ((buffer ++ [entry]).length - bufferCapacity)
  else
    buffer ++ [entry]

/-- Manager.GetEntries from internal/logtail/logtail.go: filter the buffer by
exact source name (empty string means no filter), then, when a positive limit
is smaller than the number of matches, keep only the final `limit` matches. -/
def Manager.GetEntries (buffer : List LogEntry) (source : String) (limit : Int) :
    List LogEntry :=
  let entries := buffer.filter (fun e => source == "" || e.source == source)
  if 0 < limit ∧ limit < (entries.length : Int) then
    entries.drop (entries.length - limit.toNat)
  else
    entries

/-- The bufio ReadString loop in Stream.read: split the characters read from
the current offset into the complete newline-terminated lines (with the
newline stripped, as strings.TrimSuffix does) and the trailing partial line
that ReadString hands back together with io.EOF (which the loop discards). -/
def splitLines : List Char → List (List Char) × List Char
  | [] => ([], [])
  | c :: rest =>
    if c = '\n' then
      ([] :: (splitLines rest).1, (splitLines rest).2)
    else
      match splitLines rest with
      | (l :: ls, p) => ((c :: l) :: ls, p)
      | ([], p) => ([], c :: p)

/-- The cursor and per-file line counter a Stream.read loop owns. -/
structure FollowState where
  offset : Nat
  lineNumber : Nat
deriving Repr, DecidableEq

/-- The per-line body of the ReadString loop in Stream.read: increment the
per-file line counter and construct one LogEntry per complete line. -/
def Stream.emitLines (cfg : StreamConfig) : Nat → List (List Char) → List LogEntry
  | _, [] => []
  | n, l :: ls =>
    { source := cfg.name, content := l.asString, tags := cfg.tags, lineNumber := n + 1 }
      :: Stream.emitLines cfg (n + 1) ls

/-- One iteration of the polling loop in Stream.read, applied to the file
contents observed at this poll.  If the size exceeds the cursor, the loop
seeks to the cursor and reads every complete line.  After the ReadString loop
hits io.EOF the bufio reader has already advanced the underlying descriptor to
end-of-file, so the Seek(0, io.SeekCurrent) that refreshes the cursor yields
the file size — including the bytes of a trailing partial line. -/
def Stream.readIteration (cfg : StreamConfig) (file : List Char) (st : FollowState) :
    List LogEntry × FollowState :=
  if st.offset < file.length then
    let lines := (splitLines (file.drop st.offset)).1
    (Stream.emitLines cfg st.lineNumber lines,
      { offset := file.length, lineNumber := st.lineNumber + lines.length })
  else
    ([], st)

/-- Stream.read's polling loop, run over the successive file contents observed
at each poll. -/
def Stream.run (cfg : StreamConfig) (st : FollowState) :
    List (List Char) → List LogEntry × FollowState
  | [] => ([], st)
  | f :: fs =>
    let step := Stream.readIteration cfg f st
    let rest := Stream.run cfg step.2 fs
    (step.1 ++ rest.1, rest.2)

/-- In tail-only mode Stream.read seeks to end-of-file before its first
iteration, so the cursor starts at the length of the pre-existing content;
the line counter of a fresh Stream starts at 0 (Manager.addFile). -/
def Stream.tailOnlyStart (initial : List Char) : FollowState :=
  ⟨initial.length, 0⟩

/-- Number of newline characters in a character list. -/
def countNewlines (l : List Char) : Nat :=
  (l.filter (fun c => c == '\n')).length

/-- A concrete source configuration used by the concrete evaluations below. -/
def appCfg : StreamConfig :=
  { name := "app", path := "/logs", patterns := ["*.log"], tags := [], color := "" }

/-- Concrete entries used by the concrete evaluations below. -/
def entA : LogEntry := { source := "app", content := "a", tags := [], lineNumber := 1 }

def entB : LogEntry := { source := "app", content := "b", tags := [], lineNumber := 2 }

def entC : LogEntry := { source := "app", content := "c", tags := [], lineNumber := 3 }

def entDb : LogEntry := { source := "db", content := "b", tags := [], lineNumber := 1 }

/-- Holds when each observed file content is a prefix of the next one — the
append-only growth assumption of the design. -/
def isPrefixChain : List (List Char) → Bool
  | [] => true
  | [_] => true
  | a :: b :: r => a.isPrefixOf b && isPrefixChain (b :: r)

/- ### A model of the Go regexp library, and Manager.Search (claim C8) -/

/-- The compiled form of the Go regular expressions this development needs: a
case-insensitivity flag (set by the "(?i)" prefix the MCP server prepends)
and a literal body, matched as a substring the way Go regexp matches literal
patterns. -/
structure GoRegex where
  ci : Bool
  lit : List Char
deriving Repr, DecidableEq

/-- Whether `p` occurs as a contiguous run inside the second list. -/
def isInfixOfB (p : List Char) : List Char → Bool
  | [] => p.isEmpty
  | c :: rest => p.isPrefixOf (c :: rest) || isInfixOfB p rest

/-- Go (*Regexp).MatchString for the literal fragment: an unanchored substring
test, after case folding when the (?i) flag was set. -/
def GoRegex.matchString (re : GoRegex) (s : String) : Bool :=
  if re.ci then isInfixOfB (re.lit.map Char.toLower) (s.data.map Char.toLower)
  else isInfixOfB re.lit s.data

/-- The metacharacters of Go regexp syntax. -/
def regexMeta : List Char :=
  ['\\', '^', '$', '.', '[', ']', '|', '(', ')', '*', '+', '?', '\x7b', '\x7d']

/-- Modelled from the Go standard library regexp.Compile, restricted to the
fragment the claims exercise: an optional leading "(?i)" flag group sets
case-insensitive matching, and a metacharacter-free remainder compiles to a
literal substring matcher.  A remainder containing a metacharacter — e.g. the
unmatched "(" of the spec's scenario — is modelled as failing to compile, as
"(" does in Go.  Manager.Search and the server tools below are parametric in
the compile function, so the theorems about their control flow do not depend
on this partial model; it instantiates the concrete evaluations. -/
def goCompile (pattern : String) : Option GoRegex :=
  let flagged := ("(?i)".data).isPrefixOf pattern.data
  let rest := if flagged then pattern.data.drop 4 else pattern.data
  if rest.any (fun c => regexMeta.contains c) then none
  else some { ci := flagged, lit := rest }

/-- Manager.Search from internal/logtail/logtail.go: compile the pattern — on
a compile failure an invalid-pattern error is returned synchronously, before
the buffer is consulted — and otherwise scan a read-locked snapshot of the
buffer in arrival order, yielding the entries that pass the exact source
filter (empty string means all sources) and whose content matches.  `compile`
stands for the library's regexp.Compile. -/
def Manager.Search (compile : String → Option GoRegex) (pattern source : String)
    (buffer : List LogEntry) : Except String (List LogEntry) :=
  match compile pattern with
  | none => .error "invalid pattern"
  | some re =>
    .ok (buffer.filter (fun e =>
      (source == "" || e.source == source) && re.matchString e.content))

/- ### The MCP server's group handling (claims C3 and C10) -/

/-- LogGroup from internal/mcp/mcp.go (CreatedAt omitted: no verified
property depends on it). -/
structure LogGroup where
  name : String
  pattern : String
  color : String
  streams : List String
deriving Repr, DecidableEq

/-- The zero value a Go map read yields for a missing LogGroup key. -/
def LogGroup.zero : LogGroup :=
  { name := "", pattern := "", color := "", streams := [] }

/-- strings.Split on a comma, modelled from the Go standard library. -/
def splitOnComma : List Char → List (List Char)
  | [] => [[]]
  | c :: rest =>
    if c = ',' then [] :: splitOnComma rest
    else
      match splitOnComma rest with
      | p :: ps => (c :: p) :: ps
      | [] => [[c]]

def isSpaceChar (c : Char) : Bool :=
  c == ' ' || c == '\t' || c == '\n' || c == '\r'

/-- strings.TrimSpace, modelled from the Go standard library (on the ASCII
whitespace the claims exercise). -/
def trimSpaces (l : List Char) : List Char :=
  ((l.dropWhile isSpaceChar).reverse.dropWhile isSpaceChar).reverse

/-- Server.toolCreateGroup from internal/mcp/mcp.go: split the comma-separated
stream list, trimming spaces; default the color to cyan; store the group under
its name, overwriting any previous one.  The pattern is stored verbatim — no
compilation or validation happens here.  The group map is embedded as an
association list read through List.lookup, for which prepending the new
binding implements the map update. -/
def Server.toolCreateGroup (groups : List (String × LogGroup))
    (name pattern color streamsStr : String) : List (String × LogGroup) :=
  let streams :=
    if streamsStr == "" then []
    else (splitOnComma streamsStr.data).map (fun p => (trimSpaces p).asString)
  let c := if color == "" then "cyan" else color
  (name, { name := name, pattern := pattern, color := c, streams := streams }) :: groups

/-- Server.toolRead from internal/mcp/mcp.go: read entries through
Manager.GetEntries; when a group filter names an existing group with a
non-empty pattern, run one further filter over those entries with
MustCompile("(?i)" + pattern) — `none` models the panic MustCompile raises
when the stored pattern does not compile.  The group's stream list is never
consulted. -/
def Server.toolRead (compile : String → Option GoRegex)
    (groups : List (String × LogGroup)) (buffer : List LogEntry)
    (source group : String) (limit : Int) : Option (List LogEntry) :=
  let entries := Manager.GetEntries buffer source limit
  if group == "" then some entries
  else
    match groups.lookup group with
    | none => some entries
    | some g =>
      if g.pattern == "" then some entries
      else
        match compile ("(?i)" ++ g.pattern) with
        | none => none
        | some re => some (entries.filter (fun e => re.matchString e.content))

/-- Server.toolGrep from internal/mcp/mcp.go: when a group is named, the
source filter handed to Manager.Search is the comma-join of that group's
stream list (the zero-value group when the name is unknown) and the group's
own pattern plays no role; what is compiled and matched is the caller's
pattern, "(?i)"-prefixed when case_insensitive is set.  The result loop's
per-entry recompilation uses the same pattern, so it filters nothing further,
and the loop stops once `limit` results are collected (immediately when the
limit is not positive). -/
def Server.toolGrep (compile : String → Option GoRegex)
    (groups : List (String × LogGroup)) (buffer : List LogEntry)
    (pattern source group : String) (limit : Int) (caseInsensitive : Bool) :
    Except String (List LogEntry) :=
  let flags := if caseInsensitive then "(?i)" else ""
  let fullPattern := flags ++ pattern
  let searchSource :=
    if group == "" then source
    else String.intercalate "," (((groups.lookup group).getD LogGroup.zero).streams)
  match Manager.Search compile fullPattern searchSource buffer with
  | .error e => .error e
  | .ok results => .ok (results.take limit.toNat)

/-- The logdump://group/ branch of Server.handleResourcesRead from
internal/mcp/mcp.go: an unknown group name yields an error response;
otherwise the group's stored pattern is MustCompile'd with the "(?i)" prefix
(no empty-pattern guard here — `none` models the panic), and the last 100
entries of the whole buffer are filtered to those whose source is one of the
group's streams and whose content matches. -/
def Server.resourcesReadGroup (compile : String → Option GoRegex)
    (groups : List (String × LogGroup)) (buffer : List LogEntry)
    (groupName : String) : Option (Except String (List LogEntry)) :=
  match groups.lookup groupName with
  | none => some (.error ("Group not found: " ++ groupName))
  | some g =>
    match compile ("(?i)" ++ g.pattern) with
    | none => none
    | some re =>
      some (.ok ((Manager.GetEntries buffer "" 100).filter
        (fun e => g.streams.contains e.source && re.matchString e.content)))

instance : DecidableEq (Except String (List LogEntry)) := fun a b =>
  match a, b with
  | .error x, .error y =>
    if h : x = y then isTrue (by rw [h]) else isFalse (by intro hc; cases hc; exact h rfl)
  | .error _, .ok _ => isFalse (by intro hc; cases hc)
  | .ok _, .error _ => isFalse (by intro hc; cases hc)
  | .ok x, .ok y =>
    if h : x = y then isTrue (by rw [h]) else isFalse (by intro hc; cases hc; exact h rfl)

/-- A concrete group used by the concrete evaluations below. -/
def errGroup : LogGroup :=
  { name := "g", pattern := "ERR", color := "cyan", streams := ["app"] }

/-- A concrete entry whose source is outside errGroup's stream list but whose
content matches its pattern. -/
def entDbErr : LogEntry :=
  { source := "db", content := "ERRx", tags := [], lineNumber := 1 }

/- ### Config.AutoDiscover (claim C9) -/

/-- The color palette for auto-discovered streams (streamColors in
internal/config/config.go). -/
def streamColors : List String :=
  ["cyan", "green", "yellow", "magenta", "blue", "red"]

/-- Helper for goExtLen: on the reversed base name, the number of characters
up to and including the first dot, if any. -/
def extLenAux : List Char → Option Nat
  | [] => none
  | c :: rest => if c = '.' then some 1 else (extLenAux rest).map (· + 1)

/-- The length of filepath.Ext of a base name, modelled from the Go standard
library: the suffix starting at the final dot, empty when there is none. -/
def goExtLen (base : String) : Nat :=
  (extLenAux base.data.reverse).getD 0

/-- The file name without its extension — base[:len(base)-len(filepath.Ext(base))]
in the Go code — which AutoDiscover uses as the stream name. -/
def stemOf (base : String) : String :=
  (base.data.take (base.data.length - goExtLen base)).asString

/-- The discovery loop of Config.AutoDiscover: `existing` is the set of
pre-existing stream names snapshotted before the loop; colorIdx advances only
when a stream is actually appended (skipped files do not consume a color). -/
def discoverLoop (logDir : String) (exclude : String → Bool)
    (existing : List String) : Nat → List String → List StreamConfig
  | _, [] => []
  | colorIdx, base :: rest =>
    if exclude (stemOf base) || existing.contains (stemOf base) then
      discoverLoop logDir exclude existing colorIdx rest
    else
      { name := stemOf base, path := logDir, patterns := [base], tags := [],
          color := streamColors.getD (colorIdx % streamColors.length) "" }
        :: discoverLoop logDir exclude existing (colorIdx + 1) rest

/-- Config.AutoDiscover from internal/config/config.go, applied to the base
names of the files the *.log and *.txt globs found in the (existing) log
directory: append one synthesized stream per kept file to the configured
streams, starting the color index at the number of pre-existing streams. -/
def Config.AutoDiscover (logDir : String) (exclude : String → Bool)
    (pre : List StreamConfig) (files : List String) : List StreamConfig :=
  pre ++ discoverLoop logDir exclude (pre.map (fun s => s.name)) pre.length files

/-- The claim's description of auto-discovery, written independently of the
loop: keep exactly the files whose derived name (base name without extension)
is neither in the exclusion set nor the name of a pre-configured stream;
synthesize one stream per kept file, named by the derived name, matching
exactly that base name in the log directory; color the i-th kept file with
palette[(number of pre-existing streams + i) mod palette size] — here via
enumFrom, which numbers the kept files consecutively starting at
`pre.length`. -/
def discoverSpec (logDir : String) (exclude : String → Bool)
    (pre : List StreamConfig) (files : List String) : List StreamConfig :=
  pre ++ (List.enumFrom pre.length (files.filter (fun b =>
      !(exclude (stemOf b) || (pre.map (fun s => s.name)).contains (stemOf b))))).map
    (fun ib => { name := stemOf ib.2, path := logDir, patterns := [ib.2], tags := [],
                 color := streamColors.getD (ib.1 % streamColors.length) "" })

/- ### Basic laws of the embedding used by several claims -/

theorem Manager.addEntry_eq_drop (buf : List LogEntry) (e : LogEntry) :
    Manager.AddEntry buf e = (buf ++ [e]).drop (buf.length + 1 - bufferCapacity) := by
  unfold Manager.AddEntry
  by_cases h : bufferCapacity < (buf ++ [e]).length
  · rw [if_pos h]
    simp [List.length_append]
  · rw [if_neg h]
    have hlen : (buf ++ [e]).length = buf.length + 1 := by simp
    rw [hlen] at h
    have h0 : buf.length + 1 - bufferCapacity = 0 := by omega
    rw [h0, List.drop_zero]

theorem Manager.addEntry_canonical (l : List LogEntry) (e : LogEntry) :
    Manager.AddEntry (l.drop (l.length - bufferCapacity)) e
      = (l ++ [e]).drop (l.length + 1 - bufferCapacity) := by
  rw [Manager.addEntry_eq_drop, List.length_drop]
  by_cases h : l.length ≤ bufferCapacity
  · have h0 : l.length - bufferCapacity = 0 := by omega
    rw [h0]
    simp
  · have h2 : l.length - (l.length - bufferCapacity) + 1 - bufferCapacity = 1 := by omega
    rw [h2]
    have h3 : l.drop (l.length - bufferCapacity) ++ [e]
        = (l ++ [e]).drop (l.length - bufferCapacity) :=
      (List.drop_append_of_le_length (by omega)).symm
    rw [h3, List.drop_drop]
    have h4 : l.length - bufferCapacity + 1 = l.length + 1 - bufferCapacity := by omega
    rw [h4]

theorem Manager.foldl_addEntry (es : List LogEntry) :
    es.foldl Manager.AddEntry [] = es.drop (es.length - bufferCapacity) := by
  induction es using List.reverseRecOn with
  | nil => simp
  | append_singleton l e ih =>
    rw [List.foldl_append, List.foldl_cons, List.foldl_nil, ih,
      Manager.addEntry_canonical]
    simp

/-- C1: for every sequence of appends through Manager.AddEntry, starting from
the empty buffer of NewManager, the buffer after the sequence (hence after
every call, the sequence being arbitrary) has length at most the capacity 1000
and holds exactly the most recently appended min(n, 1000) entries in arrival
order (the final segment of the appended sequence). -/
theorem c1_addEntry_capacity_fifo (es : List LogEntry) :
    (es.foldl Manager.AddEntry []).length ≤ bufferCapacity ∧
      es.foldl Manager.AddEntry [] = es.drop (es.length - bufferCapacity) := by
  refine ⟨?_, Manager.foldl_addEntry es⟩
  rw [Manager.foldl_addEntry es, List.length_drop]
  omega

/- ### Sequence numbering of Stream.read (claim C2) -/

theorem Stream.emitLines_length (cfg : StreamConfig) (n : Nat) (ls : List (List Char)) :
    (Stream.emitLines cfg n ls).length = ls.length := by
  induction ls generalizing n with
  | nil => rfl
  | cons l ls ih => simp [Stream.emitLines, ih]

theorem Stream.emitLines_numbers (cfg : StreamConfig) (n : Nat) (ls : List (List Char)) :
    (Stream.emitLines cfg n ls).map LogEntry.lineNumber = List.range' (n + 1) ls.length := by
  induction ls generalizing n with
  | nil => rfl
  | cons l ls ih =>
    simp only [Stream.emitLines, List.map_cons, List.length_cons, List.range'_succ]
    rw [ih]

theorem Stream.readIteration_numbers (cfg : StreamConfig) (file : List Char)
    (st : FollowState) :
    (Stream.readIteration cfg file st).1.map LogEntry.lineNumber
        = List.range' (st.lineNumber + 1) (Stream.readIteration cfg file st).1.length ∧
      (Stream.readIteration cfg file st).2.lineNumber
        = st.lineNumber + (Stream.readIteration cfg file st).1.length := by
  unfold Stream.readIteration
  by_cases h : st.offset < file.length
  · rw [if_pos h]
    refine ⟨?_, ?_⟩
    · rw [Stream.emitLines_numbers, Stream.emitLines_length]
    · rw [Stream.emitLines_length]
  · rw [if_neg h]
    exact ⟨rfl, rfl⟩

theorem Stream.run_numbers (cfg : StreamConfig) (fs : List (List Char)) (st : FollowState) :
    (Stream.run cfg st fs).1.map LogEntry.lineNumber
        = List.range' (st.lineNumber + 1) (Stream.run cfg st fs).1.length ∧
      (Stream.run cfg st fs).2.lineNumber
        = st.lineNumber + (Stream.run cfg st fs).1.length := by
  induction fs generalizing st with
  | nil => exact ⟨rfl, rfl⟩
  | cons f fs ih =>
    obtain ⟨hmap, hnum⟩ := Stream.readIteration_numbers cfg f st
    obtain ⟨ihmap, ihnum⟩ := ih (Stream.readIteration cfg f st).2
    simp only [Stream.run, List.map_append, List.length_append]
    refine ⟨?_, ?_⟩
    · rw [hmap, ihmap, hnum]
      have h5 : st.lineNumber + (Stream.readIteration cfg f st).1.length + 1
          = st.lineNumber + 1 + 1 * (Stream.readIteration cfg f st).1.length := by ring
      rw [h5, List.range'_append]
      congr 1
      omega
    · omega

/-- C2 (amended): the 1-based, strictly increasing, gap-free, repeat-free
sequence guarantee holds per Stream — that is, per followed file — not per
source: a fresh Stream.read loop (line counter 0, any starting cursor,
any polling cadence and observed file growth) emits entries whose sequence
numbers are exactly 1, 2, …, N. -/
theorem c2_sequence_per_stream (cfg : StreamConfig) (off : Nat) (fs : List (List Char)) :
    (Stream.run cfg ⟨off, 0⟩ fs).1.map LogEntry.lineNumber
      = List.range' 1 (Stream.run cfg ⟨off, 0⟩ fs).1.length :=
  (Stream.run_numbers cfg fs ⟨off, 0⟩).1

/-- C2 (counterexample): the per-source form of the claim is false.  A source
whose patterns match two files gets two Stream.read loops, each with its own
line counter (Manager.addFile creates a Stream with LineNumber 0 per path), so
with two one-line files the entries emitted for the source carry sequence
numbers 1 and 1: the sequence number 1 is reused and the combined per-source
sequence is not strictly increasing in any interleaving. -/
theorem c2_per_source_counterexample :
    ((Stream.run appCfg ⟨0, 0⟩ [['x', '\n']]).1
        ++ (Stream.run appCfg ⟨0, 0⟩ [['y', '\n']]).1).map LogEntry.lineNumber = [1, 1] ∧
      ((Stream.run appCfg ⟨0, 0⟩ [['x', '\n']]).1
        ++ (Stream.run appCfg ⟨0, 0⟩ [['y', '\n']]).1).map LogEntry.source
        = ["app", "app"] ∧
      ¬ List.Pairwise (fun a b => a < b) [1, 1] := by
  decide

/- ### Manager.GetEntries (claims C4 and C5) -/

/-- C4: a read through Manager.GetEntries with a named source and a positive
limit returns only entries of that source, at most `limit` of them, and as a
sublist of the buffer — i.e. in the relative order in which the entries were
appended. -/
theorem c4_getEntries_source_limit_order (buffer : List LogEntry) (S : String) (N : Int)
    (hS : S ≠ "") (hN : 1 ≤ N) :
    (∀ e ∈ Manager.GetEntries buffer S N, e.source = S) ∧
      (Manager.GetEntries buffer S N).length ≤ N.toNat ∧
      (Manager.GetEntries buffer S N).Sublist buffer := by
  unfold Manager.GetEntries
  have hmem : ∀ e ∈ buffer.filter (fun e => S == "" || e.source == S), e.source = S := by
    intro e he
    have := List.of_mem_filter he
    rcases Bool.or_eq_true_iff.mp this with h | h
    · exact absurd (beq_iff_eq.mp h) hS
    · exact beq_iff_eq.mp h
  have hsub : (buffer.filter (fun e => S == "" || e.source == S)).Sublist buffer :=
    List.filter_sublist buffer
  by_cases hcond : 0 < N ∧ N < ((buffer.filter (fun e => S == "" || e.source == S)).length : Int)
  · rw [if_pos hcond]
    refine ⟨fun e he => hmem e ((List.drop_sublist _ _).mem he), ?_, ?_⟩
    · rw [List.length_drop]
      omega
    · exact (List.drop_sublist _ _).trans hsub
  · rw [if_neg hcond]
    refine ⟨hmem, ?_, hsub⟩
    have hle : ((buffer.filter (fun e => S == "" || e.source == S)).length : Int) ≤ N := by
      omega
    omega

theorem c4_witness :
    (∀ e ∈ Manager.GetEntries [entA, entDb] "app" 5, e.source = "app") ∧
      (Manager.GetEntries [entA, entDb] "app" 5).length ≤ (5 : Int).toNat ∧
      (Manager.GetEntries [entA, entDb] "app" 5).Sublist [entA, entDb] :=
  c4_getEntries_source_limit_order [entA, entDb] "app" 5 (by decide) (by decide)

/-- C5 (counterexample): the returned slice is not most-recent-first.  With a
buffer holding the older entry `entA` and then the newer entry `entB` (both
of source "app") and limit 2, GetEntries returns `[entA, entB]`: its first
element is the oldest returned entry, while the newest matching entry (the
last one appended, `entB`) comes last. -/
theorem c5_most_recent_first_counterexample :
    Manager.GetEntries [entA, entB] "" 2 = [entA, entB] ∧
      (Manager.GetEntries [entA, entB] "" 2).head? ≠ some entB ∧
      ([entA, entB] : List LogEntry).getLast? = some entB := by
  decide

/-- C5 (amended): for a positive limit, Manager.GetEntries returns the newest
min(limit, matches) matching entries drawn from the full retained history, in
arrival (oldest-first) order: it is exactly the final segment of the filtered
buffer. -/
theorem c5_newest_suffix_oldest_first (buffer : List LogEntry) (source : String)
    (limit : Int) (h : 1 ≤ limit) :
    Manager.GetEntries buffer source limit
      = (buffer.filter (fun e => source == "" || e.source == source)).drop
          ((buffer.filter (fun e => source == "" || e.source == source)).length
            - limit.toNat) := by
  unfold Manager.GetEntries
  by_cases hcond : 0 < limit ∧
      limit < ((buffer.filter (fun e => source == "" || e.source == source)).length : Int)
  · rw [if_pos hcond]
  · rw [if_neg hcond]
    have h0 : (buffer.filter (fun e => source == "" || e.source == source)).length
        - limit.toNat = 0 := by omega
    rw [h0, List.drop_zero]

theorem c5_witness :
    Manager.GetEntries [entA, entB, entC] "app" 2
      = ([entA, entB, entC].filter (fun e => "app" == "" || e.source == "app")).drop
          (([entA, entB, entC].filter (fun e => "app" == "" || e.source == "app")).length
            - (2 : Int).toNat) :=
  c5_newest_suffix_oldest_first [entA, entB, entC] "app" 2 (by decide)

/- ### The polling loop of Stream.read (claims C6 and C7) -/

theorem splitLines_count (l : List Char) :
    (splitLines l).1.length = countNewlines l := by
  induction l with
  | nil => rfl
  | cons c rest ih =>
    by_cases h : c = '\n'
    · subst h
      show (([] :: (splitLines rest).1 : List (List Char)).length) = _
      rw [List.length_cons, ih]
      simp [countNewlines, List.filter_cons]
    · have hcount : countNewlines (c :: rest) = countNewlines rest := by
        simp [countNewlines, List.filter_cons, h]
      rw [hcount, ← ih]
      rcases hsp : splitLines rest with ⟨ls, p⟩
      simp only [splitLines, hsp, if_neg h]
      cases ls with
      | nil => rfl
      | cons l ls => rfl

theorem Stream.readIteration_count (cfg : StreamConfig) (file : List Char)
    (st : FollowState) (h : st.offset ≤ file.length) :
    (Stream.readIteration cfg file st).1.length = countNewlines (file.drop st.offset) ∧
      (Stream.readIteration cfg file st).2.offset = file.length := by
  unfold Stream.readIteration
  by_cases hlt : st.offset < file.length
  · rw [if_pos hlt]
    exact ⟨(Stream.emitLines_length _ _ _).trans (splitLines_count _), rfl⟩
  · rw [if_neg hlt]
    have heq : st.offset = file.length := by omega
    constructor
    · rw [heq, List.drop_length]
      rfl
    · exact heq

theorem countNewlines_append (a b : List Char) :
    countNewlines (a ++ b) = countNewlines a + countNewlines b := by
  simp [countNewlines, List.filter_append]


theorem isPrefixChain_head_last (f F : List Char) (fs : List (List Char))
    (hchain : isPrefixChain (f :: fs) = true)
    (hlast : (f :: fs).getLast? = some F) :
    ∃ t, F = f ++ t := by
  induction fs generalizing f with
  | nil =>
    have hFf : f = F := by simpa using hlast
    exact ⟨[], by rw [← hFf, List.append_nil]⟩
  | cons g r ih =>
    have h1 : f.isPrefixOf g = true ∧ isPrefixChain (g :: r) = true := by
      have := hchain
      unfold isPrefixChain at this
      exact Bool.and_eq_true_iff.mp this
    have hlast2 : (g :: r).getLast? = some F := by
      rw [← hlast, List.getLast?_cons_cons]
    obtain ⟨t1, ht1⟩ := List.isPrefixOf_iff_prefix.mp h1.1
    obtain ⟨t2, ht2⟩ := ih g h1.2 hlast2
    exact ⟨t1 ++ t2, by rw [ht2, ← ht1, List.append_assoc]⟩

theorem countNewlines_drop_add (f F : List Char) (o : Nat)
    (hpre : ∃ t, F = f ++ t) (ho : o ≤ f.length) :
    countNewlines (F.drop o) = countNewlines (f.drop o) + countNewlines (F.drop f.length) := by
  obtain ⟨t, ht⟩ := hpre
  subst ht
  rw [List.drop_append_of_le_length ho, List.drop_left, countNewlines_append]

theorem Stream.run_cons (cfg : StreamConfig) (st : FollowState) (f : List Char)
    (fs : List (List Char)) :
    Stream.run cfg st (f :: fs)
      = ((Stream.readIteration cfg f st).1
            ++ (Stream.run cfg (Stream.readIteration cfg f st).2 fs).1,
          (Stream.run cfg (Stream.readIteration cfg f st).2 fs).2) := rfl

theorem Stream.run_count (cfg : StreamConfig) (fs : List (List Char)) :
    ∀ (f F : List Char) (st : FollowState),
      isPrefixChain (f :: fs) = true → (f :: fs).getLast? = some F →
      st.offset ≤ f.length →
      (Stream.run cfg st (f :: fs)).1.length = countNewlines (F.drop st.offset) ∧
        (Stream.run cfg st (f :: fs)).2.offset = F.length := by
  induction fs with
  | nil =>
    intro f F st hchain hlast ho
    have hFf : f = F := by simpa using hlast
    subst hFf
    obtain ⟨hcount, hoff⟩ := Stream.readIteration_count cfg f st ho
    rw [Stream.run_cons]
    simp only [Stream.run, List.append_nil]
    exact ⟨hcount, hoff⟩
  | cons g r ih =>
    intro f F st hchain hlast ho
    have h1 : f.isPrefixOf g = true ∧ isPrefixChain (g :: r) = true := by
      have := hchain
      unfold isPrefixChain at this
      exact Bool.and_eq_true_iff.mp this
    obtain ⟨t, ht⟩ := List.isPrefixOf_iff_prefix.mp h1.1
    have hflen : f.length ≤ g.length := by
      rw [← ht, List.length_append]
      omega
    have hlast2 : (g :: r).getLast? = some F := by
      rw [← hlast, List.getLast?_cons_cons]
    obtain ⟨hcount1, hoff1⟩ := Stream.readIteration_count cfg f st ho
    have ho2 : (Stream.readIteration cfg f st).2.offset ≤ g.length := by
      rw [hoff1]; exact hflen
    obtain ⟨hcount2, hoff2⟩ := ih g F (Stream.readIteration cfg f st).2 h1.2 hlast2 ho2
    have hfF : ∃ u, F = f ++ u := isPrefixChain_head_last f F (g :: r) hchain hlast
    rw [Stream.run_cons]
    constructor
    · show ((Stream.readIteration cfg f st).1
          ++ (Stream.run cfg (Stream.readIteration cfg f st).2 (g :: r)).1).length = _
      rw [List.length_append, hcount1, hcount2, hoff1,
        countNewlines_drop_add f F st.offset hfF ho]
    · exact hoff2

theorem countNewlines_flatten (ms : List (List Char))
    (h : ∀ m ∈ ms, countNewlines m = 1) :
    countNewlines ms.flatten = ms.length := by
  induction ms with
  | nil => rfl
  | cons m ms ih =>
    rw [List.flatten_cons, countNewlines_append, h m (by simp),
      ih (fun x hx => h x (by simp [hx])), List.length_cons]
    omega

/-- C7: in tail-only mode the Follower seeks to end-of-file before its first
iteration, so for a file whose pre-existing content is `initial` and which
then grows (append-only, each poll observing a prefix of the next and the
final poll observing the whole file) by `ms` newline-terminated lines, the
polling loop emits exactly `ms.length` entries — the pre-existing content is
never replayed. -/
theorem c7_tail_only_emits_exactly_appended (cfg : StreamConfig)
    (initial full : List Char) (ms fs : List (List Char))
    (hlines : ∀ m ∈ ms, countNewlines m = 1)
    (hfull : full = initial ++ ms.flatten)
    (hchain : isPrefixChain (initial :: fs) = true)
    (hlast : (initial :: fs).getLast? = some full) :
    (Stream.run cfg (Stream.tailOnlyStart initial) fs).1.length = ms.length := by
  cases fs with
  | nil =>
    have hif : initial = full := by simpa using hlast
    rw [← hif] at hfull
    have hflat : ms.flatten = [] := by
      have := congrArg List.length hfull
      simp only [List.length_append] at this
      cases hml : ms.flatten with
      | nil => rfl
      | cons x xs =>
        rw [hml] at this
        simp at this
    have hms : ms = [] := by
      cases ms with
      | nil => rfl
      | cons m ms =>
        exfalso
        have hm : m = [] := (List.flatten_eq_nil_iff.mp hflat) m (by simp)
        have := hlines m (by simp)
        rw [hm] at this
        exact absurd this (by decide)
    rw [hms]
    rfl
  | cons f r =>
    have h1 : initial.isPrefixOf f = true ∧ isPrefixChain (f :: r) = true := by
      have := hchain
      unfold isPrefixChain at this
      exact Bool.and_eq_true_iff.mp this
    have hflen : initial.length ≤ f.length := by
      obtain ⟨t, ht⟩ := List.isPrefixOf_iff_prefix.mp h1.1
      rw [← ht, List.length_append]
      omega
    have hlast2 : (f :: r).getLast? = some full := by
      rw [← hlast, List.getLast?_cons_cons]
    obtain ⟨hcount, _⟩ := Stream.run_count cfg r f full (Stream.tailOnlyStart initial)
      h1.2 hlast2 hflen
    rw [hcount]
    show countNewlines (full.drop initial.length) = ms.length
    rw [hfull, List.drop_left, countNewlines_flatten ms hlines]

theorem c7_witness :
    (Stream.run appCfg (Stream.tailOnlyStart "a\nb\n".data)
      ["a\nb\nx\n".data, "a\nb\nx\ny\n".data]).1.length = 2 :=
  c7_tail_only_emits_exactly_appended appCfg "a\nb\n".data "a\nb\nx\ny\n".data
    ["x\n".data, "y\n".data] ["a\nb\nx\n".data, "a\nb\nx\ny\n".data]
    (by decide) (by decide) (by decide) (by decide)

/-- C6 (code evaluated at the failing input): a poll that observes the
unterminated content "hello" consumes no line, yet advances the cursor to 5
(the end of file) instead of leaving it at 0 — the bufio reader created in
Stream.read reads ahead to end-of-file, and the cursor is refreshed from the
file descriptor position.  When the line is later completed ("hello world\n"),
the only entry ever emitted is " world": the partial line's content "hello"
is silently lost, contradicting the specified behaviour that a partial line
is left unread and emitted once terminated. -/
theorem c6_partial_line_lost :
    (Stream.readIteration appCfg "hello".data ⟨0, 0⟩
        = ([], { offset := 5, lineNumber := 0 })) ∧
      (splitLines "hello".data).1 = [] ∧
      ((Stream.run appCfg ⟨0, 0⟩ ["hello".data, "hello world\n".data]).1.map
        LogEntry.content) = [" world"] ∧
      ¬ "hello world" ∈ ((Stream.run appCfg ⟨0, 0⟩
        ["hello".data, "hello world\n".data]).1.map LogEntry.content) := by
  decide

/-- C8: Manager.Search surfaces a compile failure as a synchronous error that
is computed by the compile step alone — it is identical whatever the buffer
holds, so no scan work or buffer access is involved, and the pure model can
mutate nothing — and every pattern the compile function accepts yields a
non-error result. -/
theorem c8_search_error_iff_bad_pattern (compile : String → Option GoRegex)
    (pattern source : String) (buffer other : List LogEntry) :
    (compile pattern = none →
      Manager.Search compile pattern source buffer = .error "invalid pattern" ∧
        Manager.Search compile pattern source buffer
          = Manager.Search compile pattern source other) ∧
      (∀ re, compile pattern = some re →
        Manager.Search compile pattern source buffer
          = .ok (buffer.filter (fun e =>
              (source == "" || e.source == source) && re.matchString e.content))) := by
  constructor
  · intro h
    unfold Manager.Search
    rw [h]
    exact ⟨rfl, rfl⟩
  · intro re h
    unfold Manager.Search
    rw [h]

theorem c8_witness :
    (Manager.Search goCompile "(" "" [entA] = .error "invalid pattern" ∧
      Manager.Search goCompile "(" "" [entA] = Manager.Search goCompile "(" "" []) ∧
      Manager.Search goCompile "ERR" "" [entA]
        = .ok ([entA].filter (fun e => ("" == "" || e.source == "")
            && GoRegex.matchString { ci := false, lit := "ERR".data } e.content)) :=
  ⟨(c8_search_error_iff_bad_pattern goCompile "(" "" [entA] []).1 (by decide),
    (c8_search_error_iff_bad_pattern goCompile "ERR" "" [entA] []).2
      { ci := false, lit := "ERR".data } (by decide)⟩


/-- C3 (counterexample): a logdump_read with group filter "g" — a group scoped
to the single source "app" — returns the entry of source "db" anyway, because
Server.toolRead applies only the group's regex and ignores its stream list.
The claim predicts the empty result, since the entry's source is not in the
group's stream list. -/
theorem c3_group_scope_counterexample :
    Server.toolRead goCompile [("g", errGroup)] [entDbErr] "" "g" 100
        = some [entDbErr] ∧
      errGroup.streams.contains entDbErr.source = false := by
  decide

/-- C3 (amended): the group definition is looked up freshly on every query,
but the three query paths apply it differently.  logdump_read applies only a
secondary case-insensitive regex pass over what the read already returned,
ignoring the group's stream list.  logdump_grep ignores the group's pattern:
the group only replaces the source filter by the comma-join of its stream
list, which Manager.Search compares for exact equality against each entry's
source.  Only a resources/read of the group's URI returns exactly the
already-read entries whose source is in the group's stream list and whose
content matches the group's pattern (case-insensitively). -/
theorem c3_group_filter_per_path (compile : String → Option GoRegex)
    (groups : List (String × LogGroup)) (buffer : List LogEntry)
    (source group : String) (limit : Int) (g : LogGroup) (re : GoRegex) :
    (groups.lookup group = some g → group ≠ "" → g.pattern ≠ "" →
      compile ("(?i)" ++ g.pattern) = some re →
      Server.toolRead compile groups buffer source group limit
        = some ((Manager.GetEntries buffer source limit).filter
            (fun e => re.matchString e.content))) ∧
      (groups.lookup group = some g → group ≠ "" →
        ∀ (pattern : String) (ci : Bool),
          Server.toolGrep compile groups buffer pattern source group limit ci
            = (Manager.Search compile ((if ci then "(?i)" else "") ++ pattern)
                (String.intercalate "," g.streams) buffer).map
                (fun results => results.take limit.toNat)) ∧
      (groups.lookup group = some g → compile ("(?i)" ++ g.pattern) = some re →
        Server.resourcesReadGroup compile groups buffer group
          = some (.ok ((Manager.GetEntries buffer "" 100).filter
              (fun e => g.streams.contains e.source && re.matchString e.content)))) := by
  refine ⟨?_, ?_, ?_⟩
  · intro hg hne hpat hre
    have hgb : (group == "") = false := beq_eq_false_iff_ne.mpr hne
    have hpb : (g.pattern == "") = false := beq_eq_false_iff_ne.mpr hpat
    simp only [Server.toolRead, hgb, Bool.false_eq_true, if_false, hg, hpb, hre]
  · intro hg hne pattern ci
    have hgb : (group == "") = false := beq_eq_false_iff_ne.mpr hne
    simp only [Server.toolGrep, hgb, Bool.false_eq_true, if_false, hg, Option.getD_some]
    cases hs : Manager.Search compile ((if ci then "(?i)" else "") ++ pattern)
        (String.intercalate "," g.streams) buffer with
    | error e => simp [hs, Except.map]
    | ok results => simp [hs, Except.map]
  · intro hg hre
    simp only [Server.resourcesReadGroup, hg, hre]

theorem c3_witness :
    (Server.toolRead goCompile [("g", errGroup)] [entDbErr, entA] "" "g" 100
        = some ((Manager.GetEntries [entDbErr, entA] "" 100).filter
            (fun e => GoRegex.matchString { ci := true, lit := "ERR".data } e.content))) ∧
      (Server.toolGrep goCompile [("g", errGroup)] [entDbErr, entA] "ERR" "" "g" 100 false
        = (Manager.Search goCompile ((if false then "(?i)" else "") ++ "ERR")
            (String.intercalate "," errGroup.streams) [entDbErr, entA]).map
            (fun results => results.take (100 : Int).toNat)) ∧
      (Server.resourcesReadGroup goCompile [("g", errGroup)] [entDbErr, entA] "g"
        = some (.ok ((Manager.GetEntries [entDbErr, entA] "" 100).filter
            (fun e => errGroup.streams.contains e.source
              && GoRegex.matchString { ci := true, lit := "ERR".data } e.content)))) := by
  refine ⟨?_, ?_, ?_⟩
  · exact (c3_group_filter_per_path goCompile [("g", errGroup)] [entDbErr, entA]
      "" "g" 100 errGroup { ci := true, lit := "ERR".data }).1
      (by decide) (by decide) (by decide) (by decide)
  · exact (c3_group_filter_per_path goCompile [("g", errGroup)] [entDbErr, entA]
      "" "g" 100 errGroup { ci := true, lit := "ERR".data }).2.1
      (by decide) (by decide) "ERR" false
  · exact (c3_group_filter_per_path goCompile [("g", errGroup)] [entDbErr, entA]
      "" "g" 100 errGroup { ci := true, lit := "ERR".data }).2.2
      (by decide) (by decide)

/-- C10: logdump_create_group stores any pattern string without validation,
and a subsequent logdump_read with that group filter — likewise a
resources/read of the group's URI — reaches
regexp.MustCompile("(?i)" + pattern), which panics on a pattern that does not
compile (modelled by `none`) instead of producing an error response.
Witnessed by creating the group "bad" with the pattern "(". -/
theorem c10_create_group_then_read_panics :
    goCompile ("(?i)" ++ "(") = none ∧
      Server.toolRead goCompile (Server.toolCreateGroup [] "bad" "(" "" "")
        [entA] "" "bad" 100 = none ∧
      Server.resourcesReadGroup goCompile (Server.toolCreateGroup [] "bad" "(" "" "")
        [entA] "bad" = none := by
  decide


theorem discoverLoop_eq_enumFrom (logDir : String) (exclude : String → Bool)
    (existing : List String) (files : List String) :
    ∀ k, discoverLoop logDir exclude existing k files
      = (List.enumFrom k (files.filter (fun b =>
          !(exclude (stemOf b) || existing.contains (stemOf b))))).map
        (fun ib => { name := stemOf ib.2, path := logDir, patterns := [ib.2], tags := [],
                     color := streamColors.getD (ib.1 % streamColors.length) "" }) := by
  induction files with
  | nil => intro k; rfl
  | cons base rest ih =>
    intro k
    by_cases h : exclude (stemOf base) || existing.contains (stemOf base)
    · rw [show discoverLoop logDir exclude existing k (base :: rest)
          = discoverLoop logDir exclude existing k rest by
        simp only [discoverLoop, if_pos h]]
      rw [List.filter_cons_of_neg ?_, ih k]
      intro hfa
      have hfa2 : (!(exclude (stemOf base) || existing.contains (stemOf base))) = true := hfa
      rw [h] at hfa2
      exact absurd hfa2 (by decide)
    · have hb : (exclude (stemOf base) || existing.contains (stemOf base)) = false := by
        cases hx : exclude (stemOf base) || existing.contains (stemOf base) with
        | false => rfl
        | true => exact absurd hx h
      rw [show discoverLoop logDir exclude existing k (base :: rest)
          = { name := stemOf base, path := logDir, patterns := [base], tags := [],
                color := streamColors.getD (k % streamColors.length) "" }
              :: discoverLoop logDir exclude existing (k + 1) rest by
        simp only [discoverLoop, if_neg h]]
      rw [List.filter_cons_of_pos ?_, ih (k + 1)]
      · rfl
      · show (!(exclude (stemOf base) || existing.contains (stemOf base))) = true
        rw [hb]
        rfl

/-- C9: Config.AutoDiscover synthesizes exactly one stream per discovered file
whose derived name (base name without extension) is neither excluded nor
already the name of a configured stream, appended after the configured
streams; each synthesized stream is named by the derived name and matches
exactly its file's base name in the log directory; colors are assigned
round-robin from the fixed six-color palette, the i-th added stream receiving
palette[(pre-existing stream count + i) mod 6]. -/
theorem c9_autoDiscover_spec (logDir : String) (exclude : String → Bool)
    (pre : List StreamConfig) (files : List String) :
    Config.AutoDiscover logDir exclude pre files = discoverSpec logDir exclude pre files := by
  unfold Config.AutoDiscover discoverSpec
  rw [discoverLoop_eq_enumFrom]

end Logdump
